import Mathlib

/-!
# Verification of the codescan rule engine and scan orchestration

A shallow embedding, in Lean 4, of the core of the `codescan` repository:

* `codescan/vulndb.py` — the rule store and its `_merge_rules` algorithm;
* `codescan/semgrep_converter.py` — the third-party (semgrep) rule importer;
* `codescan/scanner.py` — path filtering, file collection, the per-file
  analysis boundary, `ScanResult` (de)serialization and derived statistics,
  and the directory-scan progress trace;
* `codescan/gui.py` (`ScanThread.run`) — cooperative cancellation around a
  directory scan.

Python dictionaries are modelled as insertion-ordered association lists
(`List (String × α)`) with the usual dict operations (lookup, in-place set
that appends new keys at the end, delete).  Machine integers stay `Nat`/`Int`
(no overflow is relevant here); fallible operations return `Option`.
Filesystem and network effects are abstracted into explicit inputs: a file
tree value for `os.walk`, the list of parsed YAML documents for a rule
directory, and an `Except`-valued outcome for the model-provider call.
-/

namespace Codescan

/-! ## Python dict as an ordered association list -/

/-- `m.get(k)` on a Python dict: the value at the first (hence only, since
Python dict keys are unique) occurrence of key `k`. -/
def dictLookup {α : Type} (m : List (String × α)) (k : String) : Option α :=
  match m with
  | [] => none
  | (k', v) :: rest => if k' = k then some v else dictLookup rest k

/-- `m[k] = v` on a Python dict: replace the value at an existing key in
place, otherwise append the new key at the end (insertion order). -/
def dictSet {α : Type} (m : List (String × α)) (k : String) (v : α) :
    List (String × α) :=
  match m with
  | [] => [(k, v)]
  | (k', v') :: rest =>
      if k' = k then (k', v) :: rest else (k', v') :: dictSet rest k v

/-- `del m[k]` on a Python dict. -/
def dictDel {α : Type} (m : List (String × α)) (k : String) :
    List (String × α) :=
  match m with
  | [] => []
  | (k', v') :: rest => if k' = k then rest else (k', v') :: dictDel rest k

/-- `m.get(k, d)` on a Python dict. -/
def dictGetD {α : Type} (m : List (String × α)) (k : String) (d : α) : α :=
  (dictLookup m k).getD d

/-! ## Rule store (`codescan/vulndb.py`)

A stored rule is a Python dict; `_merge_rules` only ever reads its `'id'`
entry (with default `''`, so a missing id and an empty id behave alike) and
its `'pattern'` entry (default `None`).  All remaining entries only matter
for whole-rule replacement and equality, so they are collapsed into one
opaque `payload` component. -/

structure SRule where
  /-- the rule dict's `'id'` entry; `""` stands for a missing or empty id -/
  rid : String
  /-- the rule dict's `'pattern'` entry; `none` when the key is absent -/
  pattern : Option String
  /-- the remaining entries of the rule dict, opaque to the merge -/
  payload : String
deriving DecidableEq, Repr, Inhabited

/-- One language bucket: an ordered sequence of rules. -/
abbrev Bucket := List SRule

/-- The store's `self.patterns`: a dict mapping language to bucket. -/
abbrev Patterns := List (String × Bucket)

/-- `f"{n:04d}"` for a natural number: decimal digits, zero-padded to
width 4. -/
def pad4 (n : Nat) : String :=
  let s := toString n
  if s.length < 4 then String.mk (List.replicate (4 - s.length) '0') ++ s
  else s

/-- The id synthesized for an empty-id rule:
`f"{lang}-{len(self.patterns[lang]) + total_added + 1:04d}"`. -/
def synthId (lang : String) (n : Nat) : String :=
  lang ++ "-" ++ pad4 n

/-- The bucket-local id index
`{rule.get('id', ''): i for i, rule in enumerate(self.patterns[lang])}`,
looked up at key `rid`: a dict comprehension keeps the **last** index for a
duplicated id.  `i` counts the rules already consumed. -/
def existingIdxFrom (b : Bucket) (rid : String) (i : Nat) (acc : Option Nat) :
    Option Nat :=
  match b with
  | [] => acc
  | r :: rest =>
      existingIdxFrom rest rid (i + 1) (if r.rid = rid then some i else acc)

/-- Lookup in the id index built from the bucket as it was when the batch
for this language started. -/
def existingIdx (b : Bucket) (rid : String) : Option Nat :=
  existingIdxFrom b rid 0 none

/-- Python truthiness of `rule.get('pattern')`: a present, non-empty
string. -/
def truthyPat : Option String → Bool
  | none => false
  | some p => p ≠ ""

/-- The body of `_merge_rules`' inner `for rule in rules` loop, acting on the
state `(self.patterns[lang], total_added)`.  `exIds` is the id index built
once per bucket, before the loop. -/
def mergeRuleStep (lang : String) (exIds : String → Option Nat)
    (st : Bucket × Nat) (rule : SRule) : Bucket × Nat :=
  let b := st.1
  let total := st.2
  -- 如果ID为空，生成一个唯一ID
  let rule :=
    if rule.rid = "" then
      { rule with rid := synthId lang (b.length + total + 1) }
    else rule
  match exIds rule.rid with
  | some index =>
      -- 更新现有规则（如果新规则的模式非空且不同于旧规则）；不计数
      if truthyPat rule.pattern ∧
          rule.pattern ≠ (b.getD index default).pattern then
        (b.set index rule, total)
      else
        (b, total)
  | none =>
      -- 添加新规则
      (b ++ [rule], total + 1)

/-- One language bucket's pass of `_merge_rules`: build the id index from the
pre-batch bucket, then fold the incoming rules through `mergeRuleStep`. -/
def mergeBucket (lang : String) (existing : Bucket) (incoming : List SRule)
    (total0 : Nat) : Bucket × Nat :=
  incoming.foldl (mergeRuleStep lang (existingIdx existing)) (existing, total0)

/-- `VulnerabilityDB._merge_rules`: fold the incoming batch (a dict, i.e. a
key-unique association list) into the store; returns the new store and the
added-rule count.  Mirrors, per language: create the bucket when absent,
merge, and delete the bucket when it ends up empty. -/
def mergeLangStep (st : Patterns × Nat) (lr : String × List SRule) :
    Patterns × Nat :=
  let pats := st.1
  let total := st.2
  let lang := lr.1
  let rules := lr.2
  -- if lang not in self.patterns: self.patterns[lang] = []
  let pats := if (dictLookup pats lang).isSome then pats
              else dictSet pats lang []
  let b0 := dictGetD pats lang []
  let merged := mergeBucket lang b0 rules total
  let pats := dictSet pats lang merged.1
  -- 如果列表为空删除该语言条目
  let pats := if merged.1 = [] then dictDel pats lang else pats
  (pats, merged.2)

def mergeRules (patterns : Patterns) (new_rules : List (String × List SRule)) :
    Patterns × Nat :=
  new_rules.foldl mergeLangStep (patterns, 0)

/-! ### Lemmas about the bucket id index -/

theorem existingIdxFrom_of_no_match (b : Bucket) (rid : String) (i : Nat)
    (acc : Option Nat) (h : ∀ r ∈ b, r.rid ≠ rid) :
    existingIdxFrom b rid i acc = acc := by
  induction b generalizing i acc with
  | nil => rfl
  | cons r rest ih =>
      simp only [existingIdxFrom]
      rw [if_neg (h r (List.mem_cons_self r rest))]
      exact ih _ _ fun x hx => h x (List.mem_cons_of_mem r hx)

theorem existingIdxFrom_shift (b : Bucket) (rid : String) (i : Nat)
    (acc : Option Nat) :
    existingIdxFrom b rid (i + 1) (acc.map Nat.succ) =
      (existingIdxFrom b rid i acc).map Nat.succ := by
  induction b generalizing i acc with
  | nil => rfl
  | cons r rest ih =>
      simp only [existingIdxFrom]
      have hacc : (if r.rid = rid then some (i + 1) else acc.map Nat.succ) =
          (if r.rid = rid then some i else acc).map Nat.succ := by
        by_cases h : r.rid = rid <;> simp [h]
      rw [hacc]
      exact ih (i + 1) _

theorem existingIdx_eq_none_iff (b : Bucket) (rid : String) :
    existingIdx b rid = none ↔ rid ∉ b.map SRule.rid := by
  constructor
  · intro h hmem
    obtain ⟨r, hr, hrid⟩ := List.mem_map.mp hmem
    -- once a match has been seen, the accumulator can never return to `none`
    have key : ∀ (l : Bucket) (i : Nat) (acc : Option Nat),
        (acc ≠ none ∨ ∃ x ∈ l, x.rid = rid) →
        existingIdxFrom l rid i acc ≠ none := by
      intro l
      induction l with
      | nil =>
          intro i acc h'
          rcases h' with h' | ⟨x, hx, _⟩
          · exact h'
          · exact absurd hx (List.not_mem_nil x)
      | cons y rest ih =>
          intro i acc h'
          simp only [existingIdxFrom]
          rcases h' with h' | ⟨x, hx, hxe⟩
          · refine ih _ _ (Or.inl ?_)
            by_cases hy : y.rid = rid <;> simp [hy]
            · intro hacc; exact h' hacc
          · rcases List.mem_cons.mp hx with rfl | hx'
            · refine ih _ _ (Or.inl ?_)
              simp [hxe]
            · exact ih _ _ (Or.inr ⟨x, hx', hxe⟩)
    exact key b 0 none (Or.inr ⟨r, hr, hrid⟩) h
  · intro h
    refine existingIdxFrom_of_no_match b rid 0 none fun r hr he => ?_
    exact h (List.mem_map.mpr ⟨r, hr, he⟩)

theorem existingIdx_of_nodup (b : Bucket) (rid : String) (i : Nat)
    (hi : i < b.length) (hnd : (b.map SRule.rid).Nodup)
    (hr : (b.get ⟨i, hi⟩).rid = rid) :
    existingIdx b rid = some i := by
  induction b generalizing i with
  | nil => exact absurd hi (Nat.not_lt_zero i)
  | cons r rest ih =>
      rcases i with _ | j
      · -- the head matches, and by uniqueness nothing in the tail does
        simp only [List.get] at hr
        have hnotail : ∀ x ∈ rest, x.rid ≠ rid := by
          intro x hx he
          have : r.rid ∈ rest.map SRule.rid := by
            rw [hr, ← he]; exact List.mem_map.mpr ⟨x, hx, rfl⟩
          simp only [List.map_cons, List.nodup_cons] at hnd
          exact hnd.1 (hr ▸ this)
        show existingIdxFrom (r :: rest) rid 0 none = some 0
        simp only [existingIdxFrom, hr, if_pos rfl]
        exact existingIdxFrom_of_no_match rest rid 1 (some 0) hnotail
      · -- the match is in the tail; the head differs by uniqueness
        have hj : j < rest.length := Nat.lt_of_succ_lt_succ hi
        have hrj : (rest.get ⟨j, hj⟩).rid = rid := hr
        have hhead : r.rid ≠ rid := by
          intro he
          simp only [List.map_cons, List.nodup_cons] at hnd
          exact hnd.1 (he ▸ hrj ▸ List.mem_map.mpr
            ⟨rest.get ⟨j, hj⟩, rest.get_mem j hj, rfl⟩)
        have htail := ih j hj (by
          simp only [List.map_cons, List.nodup_cons] at hnd; exact hnd.2) hrj
        show existingIdxFrom (r :: rest) rid 0 none = some (j + 1)
        simp only [existingIdxFrom, if_neg hhead]
        have hshift : existingIdxFrom rest rid (0 + 1) none =
            Option.map Nat.succ (existingIdx rest rid) := by
          simpa using existingIdxFrom_shift rest rid 0 none
        rw [hshift, htail]
        rfl

/-! ### Claim C1 -/

/-- **C1.** `RuleStore.merge` processes each incoming rule, per language
bucket, as follows: if the incoming rule's id already exists in that bucket
(the id occupying position `i` of the bucket, unique by the store invariant),
the stored rule is replaced exactly when the incoming pattern string is
non-empty and differs from the stored pattern string, and such a replacement
does not increment the returned added-count; if the id is not present in the
bucket, the rule is appended and the added-count increases by exactly 1.
(The rule's id is non-empty; empty ids are first replaced by a synthesized id
per the merge algorithm.) -/
theorem merge_processes_each_rule (lang : String) (b : Bucket) (r : SRule)
    (t : Nat) (hid : r.rid ≠ "") (hnd : (b.map SRule.rid).Nodup) :
    (r.rid ∉ b.map SRule.rid →
        mergeBucket lang b [r] t = (b ++ [r], t + 1)) ∧
    (∀ i (hi : i < b.length), (b.get ⟨i, hi⟩).rid = r.rid →
        (mergeBucket lang b [r] t).2 = t ∧
        (mergeBucket lang b [r] t).1 =
          if truthyPat r.pattern ∧ r.pattern ≠ (b.get ⟨i, hi⟩).pattern
          then b.set i r else b) := by
  constructor
  · intro hnotmem
    have hnone : existingIdx b r.rid = none :=
      (existingIdx_eq_none_iff b r.rid).mpr hnotmem
    simp only [mergeBucket, List.foldl, mergeRuleStep, if_neg hid, hnone]
  · intro i hi hrid
    have hsome : existingIdx b r.rid = some i :=
      existingIdx_of_nodup b r.rid i hi hnd hrid
    have hgetD : b.getD i default = b.get ⟨i, hi⟩ := by
      rw [List.getD_eq_get?, List.get?_eq_get hi]; rfl
    simp only [mergeBucket, List.foldl, mergeRuleStep, if_neg hid, hsome,
      hgetD]
    by_cases hc : truthyPat r.pattern ∧ r.pattern ≠ (b.get ⟨i, hi⟩).pattern
    · rw [if_pos hc, if_pos hc]; exact ⟨rfl, rfl⟩
    · rw [if_neg hc, if_neg hc]; exact ⟨rfl, rfl⟩

/-- Witness for C1 at concrete inputs: a new id is appended with count 1, and
an existing id with a changed pattern is replaced in place with count 0. -/
theorem merge_processes_each_rule_witness :
    mergeBucket "python" [⟨"a", some "p", "x"⟩] [⟨"b", some "q", "y"⟩] 0 =
      ([⟨"a", some "p", "x"⟩, ⟨"b", some "q", "y"⟩], 1) ∧
    (mergeBucket "python" [⟨"a", some "p", "x"⟩] [⟨"a", some "q", "x"⟩] 3).2 =
      3 := by
  constructor
  · exact (merge_processes_each_rule "python" [⟨"a", some "p", "x"⟩]
      ⟨"b", some "q", "y"⟩ 0 (by decide) (by decide)).1 (by decide)
  · exact ((merge_processes_each_rule "python" [⟨"a", some "p", "x"⟩]
      ⟨"a", some "q", "x"⟩ 3 (by decide) (by decide)).2 0 (by decide)
      (by decide)).1

/-! ### Further index and dict lemmas, for the bucket-uniqueness invariant -/

theorem existingIdxFrom_some (b : Bucket) (rid : String) :
    ∀ (i : Nat) (acc : Option Nat) (j : Nat),
      existingIdxFrom b rid i acc = some j →
      acc = some j ∨ ∃ k, j = i + k ∧ (b.map SRule.rid).get? k = some rid := by
  induction b with
  | nil => intro i acc j h; exact Or.inl h
  | cons r rest ih =>
      intro i acc j h
      simp only [existingIdxFrom] at h
      rcases ih (i + 1) _ j h with hacc | ⟨k, hk, hget⟩
      · by_cases hr : r.rid = rid
        · rw [if_pos hr] at hacc
          injection hacc with hji
          exact Or.inr ⟨0, by omega, by simp [hr]⟩
        · rw [if_neg hr] at hacc
          exact Or.inl hacc
      · exact Or.inr ⟨k + 1, by omega, by simpa using hget⟩

theorem existingIdx_get? (b : Bucket) (rid : String) (i : Nat)
    (h : existingIdx b rid = some i) :
    (b.map SRule.rid).get? i = some rid := by
  rcases existingIdxFrom_some b rid 0 none i h with hacc | ⟨k, hk, hget⟩
  · exact absurd hacc (by simp)
  · have : k = i := by omega
    simpa [this] using hget


theorem set_self_of_get? {α : Type} (l : List α) (i : Nat) (a : α)
    (h : l.get? i = some a) : l.set i a = l := by
  induction l generalizing i with
  | nil => rfl
  | cons x xs ih =>
      cases i with
      | zero => simp_all [List.set]
      | succ j => simp only [List.get?] at h; simp [List.set, ih j h]

theorem dictLookup_mem {α : Type} (m : List (String × α)) (k : String) (v : α)
    (h : dictLookup m k = some v) : (k, v) ∈ m := by
  induction m with
  | nil => exact absurd h (by simp [dictLookup])
  | cons p rest ih =>
      simp only [dictLookup] at h
      by_cases hk : p.1 = k
      · rw [if_pos hk] at h
        injection h with hv
        exact List.mem_cons.mpr (Or.inl (by rw [← hk, ← hv]))
      · rw [if_neg hk] at h
        exact List.mem_cons.mpr (Or.inr (ih h))

theorem dictSet_mem {α : Type} (m : List (String × α)) (k : String) (v : α)
    (p : String × α) (h : p ∈ dictSet m k v) : p ∈ m ∨ p = (k, v) := by
  induction m with
  | nil => simpa [dictSet] using h
  | cons q rest ih =>
      simp only [dictSet] at h
      by_cases hk : q.1 = k
      · rw [if_pos hk] at h
        rcases List.mem_cons.mp h with rfl | hrest
        · exact Or.inr (by rw [← hk])
        · exact Or.inl (List.mem_cons.mpr (Or.inr hrest))
      · rw [if_neg hk] at h
        rcases List.mem_cons.mp h with rfl | hrest
        · exact Or.inl (List.mem_cons_self _ _)
        · rcases ih hrest with h' | h'
          · exact Or.inl (List.mem_cons.mpr (Or.inr h'))
          · exact Or.inr h'

theorem dictDel_mem {α : Type} (m : List (String × α)) (k : String)
    (p : String × α) (h : p ∈ dictDel m k) : p ∈ m := by
  induction m with
  | nil => simpa [dictDel] using h
  | cons q rest ih =>
      simp only [dictDel] at h
      by_cases hk : q.1 = k
      · rw [if_pos hk] at h
        exact List.mem_cons.mpr (Or.inr h)
      · rw [if_neg hk] at h
        rcases List.mem_cons.mp h with rfl | hrest
        · exact List.mem_cons_self _ _
        · exact List.mem_cons.mpr (Or.inr (ih hrest))

/-- The effect of one `mergeRuleStep` on the bucket's id sequence, for a rule
with a non-empty id: a hit in the snapshot index leaves the id sequence
unchanged, a miss appends the rule's id. -/
theorem mergeRuleStep_ids (lang : String) (b : Bucket) (b' : Bucket) (t' : Nat)
    (r : SRule) (hid : r.rid ≠ "")
    (hpre : ∃ extra, b'.map SRule.rid = b.map SRule.rid ++ extra) :
    ((mergeRuleStep lang (existingIdx b) (b', t') r).1).map SRule.rid =
      if existingIdx b r.rid = none
      then b'.map SRule.rid ++ [r.rid]
      else b'.map SRule.rid := by
  obtain ⟨extra, hext⟩ := hpre
  simp only [mergeRuleStep, if_neg hid]
  cases hfind : existingIdx b r.rid with
  | none => simp
  | some i =>
      dsimp only
      have hget : (b.map SRule.rid).get? i = some r.rid :=
        existingIdx_get? b r.rid i hfind
      have hlt : i < (b.map SRule.rid).length := (List.get?_eq_some.mp hget).1
      have hget' : (b'.map SRule.rid).get? i = some r.rid := by
        rw [hext, List.get?_append hlt]; exact hget
      by_cases hc : truthyPat r.pattern ∧
          r.pattern ≠ (b'.getD i default).pattern
      · rw [if_pos hc]
        simp only [List.map_set, reduceCtorEq, if_false]
        exact set_self_of_get? _ i r.rid hget'
      · rw [if_neg hc]
        simp

/-- Bucket-level invariant preservation, strengthened for the fold: `b` is
the snapshot bucket the id index was built from, `b'` the current bucket. -/
theorem mergeBucket_go_nodup (lang : String) (b : Bucket) :
    ∀ (rest : List SRule) (b' : Bucket) (t' : Nat) (extra : List String),
      (∀ r ∈ rest, r.rid ≠ "") →
      (rest.map SRule.rid).Nodup →
      (b'.map SRule.rid).Nodup →
      b'.map SRule.rid = b.map SRule.rid ++ extra →
      (∀ x ∈ extra, x ∉ rest.map SRule.rid) →
      (((rest.foldl (mergeRuleStep lang (existingIdx b)) (b', t')).1).map
        SRule.rid).Nodup := by
  intro rest
  induction rest with
  | nil => intro b' t' extra _ _ hnd _ _; exact hnd
  | cons r rs ih =>
      intro b' t' extra hne hrnd hnd hext hdisj
      have hid : r.rid ≠ "" := hne r (List.mem_cons_self r rs)
      have hids := mergeRuleStep_ids lang b b' t' r hid ⟨extra, hext⟩
      have hcons : r.rid ∉ rs.map SRule.rid ∧ (rs.map SRule.rid).Nodup := by
        rw [List.map_cons] at hrnd; exact List.nodup_cons.mp hrnd
      simp only [List.foldl]
      cases hfind : existingIdx b r.rid with
      | some i =>
          rw [hfind] at hids
          simp only [reduceCtorEq, if_false] at hids
          exact ih (mergeRuleStep lang (existingIdx b) (b', t') r).1
            (mergeRuleStep lang (existingIdx b) (b', t') r).2 extra
            (fun x hx => hne x (List.mem_cons_of_mem r hx))
            hcons.2
            (by rw [hids]; exact hnd)
            (by rw [hids]; exact hext)
            (fun x hx hm => hdisj x hx (by simp [hm]))
      | none =>
          rw [hfind] at hids
          simp at hids
          have hnotb : r.rid ∉ b.map SRule.rid :=
            (existingIdx_eq_none_iff b r.rid).mp hfind
          have hnotex : r.rid ∉ extra := fun hmem =>
            hdisj r.rid hmem (by simp)
          have hnotb' : r.rid ∉ b'.map SRule.rid := by
            rw [hext]
            intro hmem
            rcases List.mem_append.mp hmem with h' | h'
            · exact hnotb h'
            · exact hnotex h'
          exact ih (mergeRuleStep lang (existingIdx b) (b', t') r).1
            (mergeRuleStep lang (existingIdx b) (b', t') r).2
            (extra ++ [r.rid])
            (fun x hx => hne x (List.mem_cons_of_mem r hx))
            hcons.2
            (by rw [hids]
                exact List.Nodup.append hnd (List.nodup_singleton _)
                  (by intro x hx hy
                      rcases List.mem_singleton.mp hy with rfl
                      exact hnotb' hx))
            (by rw [hids, hext, List.append_assoc])
            (by intro x hx
                rcases List.mem_append.mp hx with h' | h'
                · exact fun hm => hdisj x h' (by simp [hm])
                · rcases List.mem_singleton.mp h' with rfl
                  exact hcons.1)

/-- The merged bucket has unique ids when the incoming rules carry non-empty,
pairwise-distinct ids and the existing bucket already had unique ids. -/
theorem mergeBucket_nodup (lang : String) (b : Bucket) (rules : List SRule)
    (t : Nat) (hb : (b.map SRule.rid).Nodup)
    (hne : ∀ r ∈ rules, r.rid ≠ "") (hrnd : (rules.map SRule.rid).Nodup) :
    (((mergeBucket lang b rules t).1).map SRule.rid).Nodup :=
  mergeBucket_go_nodup lang b rules b t [] hne hrnd hb (by simp)
    (by simp)

/-- The store invariant: within each language bucket, rule ids are unique. -/
def bucketIdsUnique (pats : Patterns) : Prop :=
  ∀ p ∈ pats, ((p.2.map SRule.rid).Nodup)

instance (pats : Patterns) : Decidable (bucketIdsUnique pats) := by
  unfold bucketIdsUnique; infer_instance

/-- **C3, counterexample.** A batch that itself contains two rules with the
same id destined for the same bucket defeats the uniqueness invariant: the id
index is built once, before the inner loop, so both rules are appended and
the resulting `"python"` bucket holds the id `"x"` twice. -/
theorem merge_duplicate_batch_ids_counterexample :
    ¬ bucketIdsUnique
        (mergeRules []
          [("python", [⟨"x", some "a", ""⟩, ⟨"x", some "b", ""⟩])]).1 := by
  decide

/-- **C3, amended.** `RuleStore.merge` preserves the per-bucket id-uniqueness
invariant provided each incoming bucket's rules carry non-empty, pairwise
distinct ids.  (Without that proviso the invariant fails: see the
counterexample, where one batch carries the same id twice; an id synthesized
for an empty-id rule can likewise collide with an id appended by the same
batch.) -/
theorem merge_preserves_unique_ids (pats : Patterns)
    (batch : List (String × List SRule))
    (hstore : bucketIdsUnique pats)
    (hbatch : ∀ lb ∈ batch, ((lb.2.map SRule.rid).Nodup ∧
      ∀ r ∈ lb.2, r.rid ≠ "")) :
    bucketIdsUnique (mergeRules pats batch).1 := by
  suffices h : ∀ (bs : List (String × List SRule)) (st : Patterns × Nat),
      bucketIdsUnique st.1 →
      (∀ lb ∈ bs, ((lb.2.map SRule.rid).Nodup ∧ ∀ r ∈ lb.2, r.rid ≠ "")) →
      bucketIdsUnique (bs.foldl mergeLangStep st).1 by
    exact h batch (pats, 0) hstore hbatch
  intro bs
  induction bs with
  | nil => intro st hst _; exact hst
  | cons lb rest ih =>
      intro st hst hbs
      simp only [List.foldl]
      refine ih _ ?_ (fun x hx => hbs x (List.mem_cons_of_mem lb hx))
      obtain ⟨hlbnd, hlbne⟩ := hbs lb (List.mem_cons_self lb rest)
      simp only [mergeLangStep]
      set pats1 := if (dictLookup st.1 lb.1).isSome then st.1
                   else dictSet st.1 lb.1 [] with hpats1
      have hinv1 : bucketIdsUnique pats1 := by
        rw [hpats1]
        split
        · exact hst
        · intro p hp
          rcases dictSet_mem st.1 lb.1 [] p hp with h' | h'
          · exact hst p h'
          · rw [h']; simp
      have hb0 : ((dictGetD pats1 lb.1 []).map SRule.rid).Nodup := by
        unfold dictGetD
        cases hlk : dictLookup pats1 lb.1 with
        | none => simp
        | some b => exact hinv1 (lb.1, b) (dictLookup_mem pats1 lb.1 b hlk)
      have hmerged := mergeBucket_nodup lb.1 (dictGetD pats1 lb.1 []) lb.2
        st.2 hb0 hlbne hlbnd
      have hinv2 : bucketIdsUnique
          (dictSet pats1 lb.1
            (mergeBucket lb.1 (dictGetD pats1 lb.1 []) lb.2 st.2).1) := by
        intro p hp
        rcases dictSet_mem _ _ _ p hp with h' | h'
        · exact hinv1 p h'
        · rw [h']; exact hmerged
      split
      · intro p hp
        exact hinv2 p (dictDel_mem _ _ p hp)
      · exact hinv2

/-- Witness for the amended C3 at concrete inputs. -/
theorem merge_preserves_unique_ids_witness :
    bucketIdsUnique
      (mergeRules [("python", [⟨"x", some "a", ""⟩])]
        [("python", [⟨"y", some "b", ""⟩, ⟨"x", some "c", ""⟩]),
         ("go", [⟨"g1", some "d", ""⟩])]).1 :=
  merge_preserves_unique_ids _ _ (by decide) (by decide)

/-! ### Dict identities used by the no-op merge theorem -/

theorem dictSet_self {α : Type} (m : List (String × α)) (k : String) (v : α)
    (h : dictLookup m k = some v) : dictSet m k v = m := by
  induction m with
  | nil => exact absurd h (by simp [dictLookup])
  | cons p rest ih =>
      simp only [dictLookup] at h
      simp only [dictSet]
      by_cases hk : p.1 = k
      · rw [if_pos hk] at h
        injection h with hv
        rw [if_pos hk, ← hv]
      · rw [if_neg hk] at h
        rw [if_neg hk, ih h]

theorem dictSet_dictSet {α : Type} (m : List (String × α)) (k : String)
    (v w : α) : dictSet (dictSet m k v) k w = dictSet m k w := by
  induction m with
  | nil => simp [dictSet]
  | cons p rest ih =>
      simp only [dictSet]
      by_cases hk : p.1 = k
      · rw [if_pos hk]; simp [dictSet, hk]
      · rw [if_neg hk]; simp only [dictSet, if_neg hk, ih]

theorem dictLookup_dictSet_self {α : Type} (m : List (String × α))
    (k : String) (v : α) : dictLookup (dictSet m k v) k = some v := by
  induction m with
  | nil => simp [dictSet, dictLookup]
  | cons p rest ih =>
      simp only [dictSet]
      by_cases hk : p.1 = k
      · rw [if_pos hk]; simp [dictLookup, hk]
      · rw [if_neg hk]; simp only [dictLookup, if_neg hk, ih]

theorem dictDel_dictSet_none {α : Type} (m : List (String × α)) (k : String)
    (v : α) (h : dictLookup m k = none) : dictDel (dictSet m k v) k = m := by
  induction m with
  | nil => simp [dictSet, dictDel]
  | cons p rest ih =>
      simp only [dictLookup] at h
      by_cases hk : p.1 = k
      · rw [if_pos hk] at h; exact absurd h (by simp)
      · rw [if_neg hk] at h
        simp only [dictSet, dictDel, if_neg hk, ih h]

/-! ### Claim C5 -/

/-- "The store already contains every rule of the batch, same ids with the
same pattern strings, bucket by bucket." -/
def storeContainsBatch (pats : Patterns)
    (batch : List (String × List SRule)) : Prop :=
  ∀ lb ∈ batch, ∀ r ∈ lb.2,
    ∃ r' ∈ dictGetD pats lb.1 [], r'.rid = r.rid ∧ r'.pattern = r.pattern

instance (pats : Patterns) (batch : List (String × List SRule)) :
    Decidable (storeContainsBatch pats batch) := by
  unfold storeContainsBatch; infer_instance

/-- **C5, counterexample.** A store that already contains, id and pattern
alike, the single rule of the batch — but with an *empty* id.  The merge
synthesizes a fresh id for the incoming copy, fails to find it in the id
index, appends it, and returns 1, so the merge is not a no-op. -/
theorem merge_noop_counterexample :
    storeContainsBatch [("py", [⟨"", some "p", "z"⟩])]
        [("py", [⟨"", some "p", "z"⟩])] ∧
      (mergeRules [("py", [⟨"", some "p", "z"⟩])]
        [("py", [⟨"", some "p", "z"⟩])]).2 = 1 := by
  decide

/-- A single merge step is the identity on the state when the rule has a
non-empty id and the bucket already holds a rule with that id and the same
pattern. -/
theorem mergeRuleStep_noop (lang : String) (b : Bucket) (t : Nat) (r : SRule)
    (hnd : (b.map SRule.rid).Nodup) (hid : r.rid ≠ "")
    (hc : ∃ r' ∈ b, r'.rid = r.rid ∧ r'.pattern = r.pattern) :
    mergeRuleStep lang (existingIdx b) (b, t) r = (b, t) := by
  obtain ⟨r', hr'mem, hr'id, hr'pat⟩ := hc
  obtain ⟨⟨i, hi⟩, hget⟩ := List.mem_iff_get.mp hr'mem
  have hfind : existingIdx b r.rid = some i :=
    existingIdx_of_nodup b r.rid i hi hnd (by rw [hget]; exact hr'id)
  have hgetD : b.getD i default = r' := by
    rw [List.getD_eq_get?, List.get?_eq_get hi, hget]; rfl
  simp only [mergeRuleStep, if_neg hid, hfind]
  rw [if_neg]
  intro hcond
  exact hcond.2 (by rw [hgetD, hr'pat])

/-- A whole bucket pass is the identity when every incoming rule is already
present with the same id and pattern. -/
theorem mergeBucket_noop (lang : String) (b : Bucket) (rules : List SRule)
    (t : Nat) (hnd : (b.map SRule.rid).Nodup)
    (h : ∀ r ∈ rules, r.rid ≠ "" ∧
      ∃ r' ∈ b, r'.rid = r.rid ∧ r'.pattern = r.pattern) :
    mergeBucket lang b rules t = (b, t) := by
  induction rules with
  | nil => rfl
  | cons r rs ih =>
      have hr := h r (List.mem_cons_self r rs)
      show List.foldl (mergeRuleStep lang (existingIdx b))
        (mergeRuleStep lang (existingIdx b) (b, t) r) rs = (b, t)
      rw [mergeRuleStep_noop lang b t r hnd hr.1 hr.2]
      exact ih (fun x hx => h x (List.mem_cons_of_mem r hx))

/-- One language step of the merge is the identity on the state under the
no-op hypotheses. -/
theorem mergeLangStep_noop (pats : Patterns) (t : Nat)
    (lb : String × List SRule)
    (hinv1 : bucketIdsUnique pats)
    (hinv2 : ∀ p ∈ pats, p.2 ≠ [])
    (hids : ∀ r ∈ lb.2, r.rid ≠ "")
    (hcont : ∀ r ∈ lb.2,
      ∃ r' ∈ dictGetD pats lb.1 [], r'.rid = r.rid ∧ r'.pattern = r.pattern) :
    mergeLangStep (pats, t) lb = (pats, t) := by
  cases hlk : dictLookup pats lb.1 with
  | some b =>
      have hmem : (lb.1, b) ∈ pats := dictLookup_mem pats lb.1 b hlk
      have hb0 : dictGetD pats lb.1 [] = b := by
        unfold dictGetD; rw [hlk]; rfl
      have hnd : (b.map SRule.rid).Nodup := hinv1 (lb.1, b) hmem
      have hmb : mergeBucket lb.1 b lb.2 t = (b, t) :=
        mergeBucket_noop lb.1 b lb.2 t hnd
          (fun r hr => ⟨hids r hr, by
            have := hcont r hr; rwa [hb0] at this⟩)
      simp only [mergeLangStep, hlk, Option.isSome_some, reduceIte, hb0, hmb]
      rw [dictSet_self pats lb.1 b hlk, if_neg (hinv2 (lb.1, b) hmem)]
  | none =>
      have hrules : lb.2 = [] := by
        cases hr : lb.2 with
        | nil => rfl
        | cons x xs =>
            exfalso
            have := hcont x (by rw [hr]; exact List.mem_cons_self x xs)
            obtain ⟨r', hr'mem, -⟩ := this
            unfold dictGetD at hr'mem
            rw [hlk] at hr'mem
            exact absurd hr'mem (List.not_mem_nil r')
      have hb0 : dictGetD (dictSet pats lb.1 []) lb.1 [] = ([] : Bucket) := by
        unfold dictGetD; rw [dictLookup_dictSet_self]; rfl
      simp only [mergeLangStep, hlk, Option.isSome_none, Bool.false_eq_true,
        reduceIte, hrules, hb0, mergeBucket, List.foldl]
      rw [dictSet_dictSet, dictDel_dictSet_none pats lb.1 _ hlk]

/-- **C5, amended.** Merging a batch the store already contains (same ids and
same pattern strings, bucket by bucket) is a no-op — `merge` returns 0 and
the store, bucket contents and pattern strings included, is unchanged —
**provided** every rule of the batch carries a non-empty id and the store
satisfies its documented invariants (unique ids within a bucket, no empty
bucket kept).  Without the non-empty-id proviso the merge re-appends the
rule under a synthesized id and returns 1: see the counterexample. -/
theorem merge_contained_batch_noop (pats : Patterns)
    (batch : List (String × List SRule))
    (hinv1 : bucketIdsUnique pats)
    (hinv2 : ∀ p ∈ pats, p.2 ≠ [])
    (hids : ∀ lb ∈ batch, ∀ r ∈ lb.2, r.rid ≠ "")
    (hcont : storeContainsBatch pats batch) :
    mergeRules pats batch = (pats, 0) := by
  suffices h : ∀ (bs : List (String × List SRule)) (t : Nat),
      (∀ lb ∈ bs, ∀ r ∈ lb.2, r.rid ≠ "") →
      (∀ lb ∈ bs, ∀ r ∈ lb.2,
        ∃ r' ∈ dictGetD pats lb.1 [], r'.rid = r.rid ∧
          r'.pattern = r.pattern) →
      bs.foldl mergeLangStep (pats, t) = (pats, t) by
    exact h batch 0 hids hcont
  intro bs
  induction bs with
  | nil => intro t _ _; rfl
  | cons lb rest ih =>
      intro t hids' hcont'
      show List.foldl mergeLangStep (mergeLangStep (pats, t) lb) rest =
        (pats, t)
      rw [mergeLangStep_noop pats t lb hinv1 hinv2
        (hids' lb (List.mem_cons_self lb rest))
        (hcont' lb (List.mem_cons_self lb rest))]
      exact ih t (fun x hx => hids' x (List.mem_cons_of_mem lb hx))
        (fun x hx => hcont' x (List.mem_cons_of_mem lb hx))

/-- Witness for the amended C5 at concrete inputs. -/
theorem merge_contained_batch_noop_witness :
    mergeRules
        [("py", [⟨"r1", some "p", "z"⟩]), ("go", [⟨"g1", some "q", "w"⟩])]
        [("py", [⟨"r1", some "p", "z"⟩])] =
      ([("py", [⟨"r1", some "p", "z"⟩]), ("go", [⟨"g1", some "q", "w"⟩])],
        0) :=
  merge_contained_batch_noop _ _ (by decide) (by decide) (by decide)
    (by decide)

/-! ## Scan results (`codescan/scanner.py`)

`ScanResult.stats` and `project_info` are `Dict[str, Any]` holding
JSON-serializable data (the spec's "structured document format").  Values are
modelled by the document type `JVal`; the float `timestamp` plays no role in
any claim and is modelled at integer precision. -/

inductive JVal where
  | null
  | bool (b : Bool)
  | int (n : Int)
  | str (s : String)
  | arr (xs : List JVal)
  | obj (kvs : List (String × JVal))
deriving Inhabited

/-- `VulnerabilityIssue`, field for field (a `dataclass`). -/
structure VulnerabilityIssue where
  severity : String
  file_path : String
  line_number : Option Int
  code_snippet : Option String
  description : String
  recommendation : String
  cwe_id : Option String
  confidence : String
deriving DecidableEq, Repr, Inhabited

/-- `ScanResult`, field for field (a `dataclass`). -/
structure ScanResult where
  scan_id : String
  scan_path : String
  scan_type : String
  timestamp : Int
  issues : List VulnerabilityIssue
  stats : List (String × JVal)
  project_info : List (String × JVal)
deriving Inhabited

/-- `ScanResult.total_issues`: `len(self.issues)`. -/
def ScanResult.total_issues (r : ScanResult) : Nat :=
  r.issues.length

/-- `ScanResult.issues_by_severity`: start from the five named severity
levels at 0, then `result[issue.severity] = result.get(issue.severity, 0) + 1`
for each issue — an unknown severity string gets its own key. -/
def issues_by_severity (r : ScanResult) : List (String × Nat) :=
  r.issues.foldl
    (fun m iss => dictSet m iss.severity (dictGetD m iss.severity 0 + 1))
    [("critical", 0), ("high", 0), ("medium", 0), ("low", 0), ("info", 0)]

/-- An optional string rendered into a document value (`None` ⇒ null). -/
def optStr : Option String → JVal
  | none => JVal.null
  | some s => JVal.str s

/-- An optional integer rendered into a document value (`None` ⇒ null). -/
def optInt : Option Int → JVal
  | none => JVal.null
  | some n => JVal.int n

/-- `vars(issue)`: the issue as a dict, in dataclass field order. -/
def issueToDict (i : VulnerabilityIssue) : JVal :=
  JVal.obj [("severity", JVal.str i.severity),
            ("file_path", JVal.str i.file_path),
            ("line_number", optInt i.line_number),
            ("code_snippet", optStr i.code_snippet),
            ("description", JVal.str i.description),
            ("recommendation", JVal.str i.recommendation),
            ("cwe_id", optStr i.cwe_id),
            ("confidence", JVal.str i.confidence)]

def asStr : JVal → Option String
  | JVal.str s => some s
  | _ => none

def asOptStr : JVal → Option (Option String)
  | JVal.null => some none
  | JVal.str s => some (some s)
  | _ => none

def asOptInt : JVal → Option (Option Int)
  | JVal.null => some none
  | JVal.int n => some (some n)
  | _ => none

/-- `VulnerabilityIssue(**issue_data)`: rebuild an issue from its dict. -/
def issueFromDict (j : JVal) : Option VulnerabilityIssue :=
  match j with
  | JVal.obj kvs => do
      let severity ← (dictLookup kvs "severity").bind asStr
      let file_path ← (dictLookup kvs "file_path").bind asStr
      let line_number ← (dictLookup kvs "line_number").bind asOptInt
      let code_snippet ← (dictLookup kvs "code_snippet").bind asOptStr
      let description ← (dictLookup kvs "description").bind asStr
      let recommendation ← (dictLookup kvs "recommendation").bind asStr
      let cwe_id ← (dictLookup kvs "cwe_id").bind asOptStr
      let confidence ← (dictLookup kvs "confidence").bind asStr
      pure ⟨severity, file_path, line_number, code_snippet, description,
        recommendation, cwe_id, confidence⟩
  | _ => none

/-- The list comprehension `[VulnerabilityIssue(**d) for d in ...]`, where
any element may fail to convert. -/
def mapConvert {α β : Type} (f : α → Option β) : List α → Option (List β)
  | [] => some []
  | x :: xs => (f x).bind fun y => (mapConvert f xs).map (y :: ·)

/-- `ScanResult.to_dict`. -/
def ScanResult.to_dict (r : ScanResult) : JVal :=
  JVal.obj [("scan_id", JVal.str r.scan_id),
            ("scan_path", JVal.str r.scan_path),
            ("scan_type", JVal.str r.scan_type),
            ("timestamp", JVal.int r.timestamp),
            ("issues", JVal.arr (r.issues.map issueToDict)),
            ("stats", JVal.obj r.stats),
            ("project_info", JVal.obj r.project_info)]

/-- `ScanResult.from_dict`: `data.pop("issues", [])`, rebuild the issues,
construct a `ScanResult` from the remaining keys (an unexpected keyword would
raise in Python, hence the key whitelist), and install the issue list. -/
def ScanResult.from_dict (j : JVal) : Option ScanResult :=
  match j with
  | JVal.obj kvs =>
      if kvs.all (fun p => p.1 ∈ ["scan_id", "scan_path", "scan_type",
          "timestamp", "issues", "stats", "project_info"]) then do
        let issuesJ := dictGetD kvs "issues" (JVal.arr [])
        let issues ← match issuesJ with
          | JVal.arr xs => mapConvert issueFromDict xs
          | _ => none
        let scan_id ← (dictLookup kvs "scan_id").bind asStr
        let scan_path ← (dictLookup kvs "scan_path").bind asStr
        let scan_type ← (dictLookup kvs "scan_type").bind asStr
        let timestamp ← (dictLookup kvs "timestamp").bind fun v =>
          match v with | JVal.int n => some n | _ => none
        let stats ← match dictLookup kvs "stats" with
          | none => some []
          | some (JVal.obj o) => some o
          | some _ => none
        let project_info ← match dictLookup kvs "project_info" with
          | none => some []
          | some (JVal.obj o) => some o
          | some _ => none
        pure ⟨scan_id, scan_path, scan_type, timestamp, issues, stats,
          project_info⟩
      else none
  | _ => none

/-- The `json.dumps`/`json.loads` pair from the Python standard library,
abstracted to its contract: a lossless text codec for document values. -/
structure JsonCodec where
  dumps : JVal → String
  loads : String → Option JVal
  loads_dumps : ∀ v, loads (dumps v) = some v

/-- `ScanResult.to_json`: `json.dumps(self.to_dict(), ...)`. -/
def ScanResult.to_json (c : JsonCodec) (r : ScanResult) : String :=
  c.dumps r.to_dict

/-- `ScanResult.from_json`: `cls.from_dict(json.loads(json_str))`. -/
def ScanResult.from_json (c : JsonCodec) (s : String) : Option ScanResult :=
  (c.loads s).bind ScanResult.from_dict

/-! ### Claim C6 -/

theorem issueFromDict_issueToDict (i : VulnerabilityIssue) :
    issueFromDict (issueToDict i) = some i := by
  cases i with
  | mk severity file_path line_number code_snippet description recommendation
      cwe_id confidence =>
      cases line_number <;> cases code_snippet <;> cases cwe_id <;> rfl

theorem mapConvert_roundtrip (l : List VulnerabilityIssue) :
    mapConvert issueFromDict (l.map issueToDict) = some l := by
  induction l with
  | nil => rfl
  | cons i rest ih =>
      simp only [List.map, mapConvert, issueFromDict_issueToDict, ih,
        Option.some_bind]
      rfl

theorem from_dict_to_dict (r : ScanResult) :
    ScanResult.from_dict (ScanResult.to_dict r) = some r := by
  cases r with
  | mk scan_id scan_path scan_type timestamp issues stats project_info =>
      simp [ScanResult.to_dict, ScanResult.from_dict, dictLookup, dictGetD,
        mapConvert_roundtrip, asStr]

/-- **C6.** Serializing a `ScanResult` and deserializing the serialized form
— `to_dict` then `from_dict`, or `to_json` then `from_json` through the
standard library's lossless text codec — yields a `ScanResult` whose
findings list equals the original (same length, same field values, same
order) and whose stats map equals the original. -/
theorem scanresult_serialization_roundtrip (r : ScanResult) :
    ((ScanResult.from_dict (ScanResult.to_dict r)).map ScanResult.issues =
        some r.issues ∧
      (ScanResult.from_dict (ScanResult.to_dict r)).map ScanResult.stats =
        some r.stats) ∧
    ∀ c : JsonCodec,
      (ScanResult.from_json c (ScanResult.to_json c r)).map
          ScanResult.issues = some r.issues ∧
        (ScanResult.from_json c (ScanResult.to_json c r)).map
          ScanResult.stats = some r.stats := by
  have h := from_dict_to_dict r
  refine ⟨⟨by rw [h]; rfl, by rw [h]; rfl⟩, fun c => ?_⟩
  have hj : ScanResult.from_json c (ScanResult.to_json c r) = some r := by
    unfold ScanResult.from_json ScanResult.to_json
    rw [c.loads_dumps, Option.some_bind, h]
  exact ⟨by rw [hj]; rfl, by rw [hj]; rfl⟩

/-! ### Claim C10 -/

/-- The sum of the counts of a severity-count dict. -/
def sumCounts : List (String × Nat) → Nat
  | [] => 0
  | p :: rest => p.2 + sumCounts rest

theorem dictLookup_dictSet {α : Type} (m : List (String × α)) (k s : String)
    (v : α) :
    dictLookup (dictSet m k v) s = if k = s then some v else dictLookup m s := by
  induction m with
  | nil => simp [dictSet, dictLookup]
  | cons p rest ih =>
      by_cases hk : p.1 = k
      · by_cases hs : k = s
        · simp [dictSet, dictLookup, hk, hs]
        · have hps : ¬ p.1 = s := by rw [hk]; exact hs
          simp [dictSet, dictLookup, hk, hs, hps]
      · by_cases hps : p.1 = s
        · have hs : ¬ k = s := fun h => hk (by rw [hps, h])
          have hsk : ¬ s = k := fun h => hs h.symm
          simp [dictSet, dictLookup, hk, hps, hs, hsk]
        · simp [dictSet, dictLookup, hk, hps, ih]

theorem dictGetD_dictSet {α : Type} (m : List (String × α)) (k s : String)
    (v d : α) :
    dictGetD (dictSet m k v) s d = if k = s then v else dictGetD m s d := by
  unfold dictGetD
  rw [dictLookup_dictSet]
  by_cases hs : k = s <;> simp [hs]

theorem sumCounts_dictSet_incr (m : List (String × Nat)) (k : String) :
    sumCounts (dictSet m k (dictGetD m k 0 + 1)) = sumCounts m + 1 := by
  induction m with
  | nil => simp [dictSet, dictGetD, dictLookup, sumCounts]
  | cons p rest ih =>
      by_cases hk : p.1 = k
      · simp [dictSet, dictGetD, dictLookup, hk, sumCounts]
        omega
      · simp only [dictSet, if_neg hk, sumCounts]
        have hgd : dictGetD (p :: rest) k 0 = dictGetD rest k 0 := by
          simp [dictGetD, dictLookup, hk]
        rw [hgd, ih]
        omega

/-- The running fold of `issues_by_severity`, characterized: total count and
per-key counts. -/
theorem issues_by_severity_fold (issues : List VulnerabilityIssue) :
    ∀ m : List (String × Nat),
      sumCounts (issues.foldl
        (fun m iss => dictSet m iss.severity (dictGetD m iss.severity 0 + 1))
        m) = sumCounts m + issues.length ∧
      ∀ s, dictGetD (issues.foldl
        (fun m iss => dictSet m iss.severity (dictGetD m iss.severity 0 + 1))
        m) s 0 = dictGetD m s 0 + issues.countP (fun i => i.severity == s) := by
  induction issues with
  | nil =>
      intro m
      exact ⟨by simp, fun s => by simp [List.countP, List.countP.go]⟩
  | cons i rest ih =>
      intro m
      simp only [List.foldl]
      refine ⟨?_, ?_⟩
      · rw [(ih _).1, sumCounts_dictSet_incr]
        simp only [List.length_cons]
        omega
      · intro s
        rw [(ih _).2 s, dictGetD_dictSet]
        by_cases hs : i.severity = s
        · rw [if_pos hs, List.countP_cons_of_pos _ _ (by simp [hs]), hs]
          omega
        · rw [if_neg hs, List.countP_cons_of_neg _ _ (by simp [hs])]

theorem dictGetD_zero (m : List (String × Nat)) (s : String)
    (h : ∀ p ∈ m, p.2 = 0) : dictGetD m s 0 = 0 := by
  induction m with
  | nil => rfl
  | cons p rest ih =>
      by_cases hps : p.1 = s
      · have := h p (List.mem_cons_self p rest)
        simp [dictGetD, dictLookup, hps, this]
      · have : dictGetD (p :: rest) s 0 = dictGetD rest s 0 := by
          simp [dictGetD, dictLookup, hps]
        rw [this]
        exact ih (fun q hq => h q (List.mem_cons_of_mem p hq))

/-- **C10.** For every `ScanResult`, the counts in the derived
`issues_by_severity` map sum to the derived `total_issues`, which equals the
length of the findings list; moreover the count stored under *any* severity
string — the five named levels and any other value a finding may carry, which
gets its own key rather than being dropped — equals the number of findings
with that severity. -/
theorem issues_by_severity_consistent (r : ScanResult) :
    sumCounts (issues_by_severity r) = r.total_issues ∧
    r.total_issues = r.issues.length ∧
    ∀ s, dictGetD (issues_by_severity r) s 0 =
      r.issues.countP (fun i => i.severity == s) := by
  have h := issues_by_severity_fold r.issues
    [("critical", 0), ("high", 0), ("medium", 0), ("low", 0), ("info", 0)]
  refine ⟨?_, rfl, ?_⟩
  · rw [show issues_by_severity r = r.issues.foldl
      (fun m iss => dictSet m iss.severity (dictGetD m iss.severity 0 + 1))
      [("critical", 0), ("high", 0), ("medium", 0), ("low", 0), ("info", 0)]
      from rfl, h.1]
    simp [sumCounts, ScanResult.total_issues]
  · intro s
    rw [show issues_by_severity r = r.issues.foldl
      (fun m iss => dictSet m iss.severity (dictGetD m iss.severity 0 + 1))
      [("critical", 0), ("high", 0), ("medium", 0), ("low", 0), ("info", 0)]
      from rfl, h.2 s, dictGetD_zero _ s (by decide)]
    omega

/-! ## Per-file analysis boundary (`CodeScanner._analyze_file_content`)

The provider call `self.model.analyze_code(prompt)` and everything after it
(JSON extraction from the response, then the vulnerability-pattern loop) sit
inside one `try`.  The call's outcome is modelled as `Except String String`
(error = the exception's message, for any `ProviderError` kind —
authentication, timeout, connection); the response processing that follows is
itself fallible and is passed in as an `Except`-valued function. -/

/-- The single diagnostic Finding synthesized by the `except` branch of
`_analyze_file_content`. -/
def apiErrorIssue (file_path msg : String) : VulnerabilityIssue :=
  { severity := "info"
    file_path := file_path
    line_number := none
    code_snippet := none
    description := "API连接错误: " ++ msg
    recommendation := "请在设置中检查您的API配置，确保API密钥正确且网络连接正常。"
    cwe_id := none
    confidence := "high" }

/-- `_analyze_file_content`: run the provider call, feed its response to the
parse-and-pattern-match stage, and convert any escaped exception into the
one-element diagnostic list. -/
def analyze_file_content (file_path : String)
    (analyze_code : Except String String)
    (parse_and_match : String → Except String (List VulnerabilityIssue)) :
    List VulnerabilityIssue :=
  match analyze_code.bind parse_and_match with
  | Except.ok issues => issues
  | Except.error e => [apiErrorIssue file_path e]

/-! ### Claim C4 -/

/-- **C4.** When the provider call raises (authentication failure, timeout,
connection failure — any `ProviderError`, carried here as the message `e`),
`_analyze_file_content` does not raise: it returns a one-element finding
list whose single Finding has severity `"info"`, confidence `"high"`, and a
description carrying the error. -/
theorem analyze_file_error_boundary (file_path e : String)
    (parse_and_match : String → Except String (List VulnerabilityIssue)) :
    analyze_file_content file_path (Except.error e) parse_and_match =
      [apiErrorIssue file_path e] ∧
    (analyze_file_content file_path (Except.error e) parse_and_match).length
      = 1 ∧
    (apiErrorIssue file_path e).severity = "info" ∧
    (apiErrorIssue file_path e).confidence = "high" ∧
    (apiErrorIssue file_path e).description = "API连接错误: " ++ e :=
  ⟨rfl, rfl, rfl, rfl, rfl⟩

/-! ## Path filtering and file collection (`codescan/scanner.py`)

The filesystem is modelled as a tree of entries; a file carries the two
attributes `_should_exclude_path` probes (`os.path.getsize` and
`is_binary_file`).  A path is its `Path(...).parts` list; the path *string*
(for the `endswith` check) is the parts joined with `/`. -/

inductive FSEntry where
  | file (name : String) (sizeBytes : Nat) (isBinary : Bool)
  | dir (name : String) (children : List FSEntry)

/-- The scan configuration read in `CodeScanner.__init__`. -/
structure ScanCfg where
  excluded_dirs : List String
  excluded_files : List String
  max_file_size_mb : Nat

/-- `str.endswith(suffix)`, character for character. -/
def strEndsWith (s suffix : String) : Bool :=
  suffix.data.isSuffixOf s.data

/-- `CodeScanner._should_exclude_path` for a regular file: a path segment
matches an excluded directory name, or the path string ends with an excluded
suffix, or the size in megabytes exceeds the cap (`size/2^20 > max`), or the
content probe says binary. -/
def shouldExcludePath (cfg : ScanCfg) (parts : List String)
    (sizeBytes : Nat) (isBinary : Bool) : Bool :=
  cfg.excluded_dirs.any (fun d => parts.contains d) ||
  cfg.excluded_files.any
    (fun ext => strEndsWith (String.intercalate "/" parts) ext) ||
  decide (sizeBytes > cfg.max_file_size_mb * 1048576) ||
  isBinary

mutual
/-- The body of `os.walk`'s visit of one directory inside `_collect_files`:
emit this directory's files that pass the filter, then descend into the
subdirectories that survive the in-place pruning
`dirs[:] = [d for d in dirs if d not in self.excluded_dirs]`. -/
def collectFrom (cfg : ScanCfg) (cur : List String)
    (children : List FSEntry) : List (List String) :=
  (children.filterMap (fun e =>
    match e with
    | FSEntry.file n sz bin =>
        if shouldExcludePath cfg (cur ++ [n]) sz bin then none
        else some (cur ++ [n])
    | FSEntry.dir _ _ => none)) ++
  collectSubdirs cfg cur children

/-- Descend into the non-pruned subdirectories, in listing order. -/
def collectSubdirs (cfg : ScanCfg) (cur : List String) :
    List FSEntry → List (List String)
  | [] => []
  | FSEntry.file _ _ _ :: rest => collectSubdirs cfg cur rest
  | FSEntry.dir n cs :: rest =>
      (if cfg.excluded_dirs.contains n then []
       else collectFrom cfg (cur ++ [n]) cs) ++
      collectSubdirs cfg cur rest
end

/-- `CodeScanner._collect_files` over the modelled tree: `root` is
`Path(path).parts` of the scanned directory, `tree` its entry.  `os.walk` of
a non-directory yields nothing. -/
def collect_files (cfg : ScanCfg) (root : List String) (tree : FSEntry) :
    List (List String) :=
  match tree with
  | FSEntry.file _ _ _ => []
  | FSEntry.dir _ children => collectFrom cfg root children

/-! ### Claim C7 -/

mutual
theorem mem_collectFrom_no_excluded (cfg : ScanCfg) (cur : List String)
    (children : List FSEntry) (p : List String)
    (hp : p ∈ collectFrom cfg cur children) :
    ∀ d ∈ cfg.excluded_dirs, d ∉ p := by
  intro d hd hdp
  rw [collectFrom] at hp
  rcases List.mem_append.mp hp with hfile | hsub
  · obtain ⟨e, he, hconv⟩ := List.mem_filterMap.mp hfile
    match e, hconv with
    | FSEntry.file n sz bin, hconv => ?_
    | FSEntry.dir n cs, hconv => exact absurd hconv (by simp)
    dsimp only at hconv
    by_cases hex : shouldExcludePath cfg (cur ++ [n]) sz bin
    · rw [if_pos hex] at hconv
      exact absurd hconv (by simp)
    · rw [if_neg hex] at hconv
      injection hconv with hpv
      have hex' : shouldExcludePath cfg (cur ++ [n]) sz bin = false := by
        simpa using hex
      simp only [shouldExcludePath, Bool.or_eq_false_iff] at hex'
      have hany := hex'.1.1.1
      rw [List.any_eq_false] at hany
      have := hany d hd
      rw [← hpv] at hdp
      simp at this
      rcases List.mem_append.mp hdp with h1 | h2
      · exact this.1 h1
      · exact this.2 (by simpa using h2)
  · exact mem_collectSubdirs_no_excluded cfg cur children p hsub d hd hdp

theorem mem_collectSubdirs_no_excluded (cfg : ScanCfg) (cur : List String)
    (children : List FSEntry) (p : List String)
    (hp : p ∈ collectSubdirs cfg cur children) :
    ∀ d ∈ cfg.excluded_dirs, d ∉ p := by
  intro d hd hdp
  match children, hp with
  | [], hp => rw [collectSubdirs] at hp; exact absurd hp (List.not_mem_nil p)
  | FSEntry.file n sz bin :: rest, hp =>
      rw [collectSubdirs] at hp
      exact mem_collectSubdirs_no_excluded cfg cur rest p hp d hd hdp
  | FSEntry.dir n cs :: rest, hp =>
      rw [collectSubdirs] at hp
      rcases List.mem_append.mp hp with hhead | htail
      · by_cases hexc : cfg.excluded_dirs.contains n
        · rw [if_pos hexc] at hhead
          exact absurd hhead (List.not_mem_nil p)
        · rw [if_neg hexc] at hhead
          exact mem_collectFrom_no_excluded cfg (cur ++ [n]) cs p hhead d hd
            hdp
      · exact mem_collectSubdirs_no_excluded cfg cur rest p htail d hd hdp
end

/-- **C7.** If a directory's name is in the configured excluded-directory
set, no path under it — indeed no path containing that name as a segment at
all — appears in the list returned by `_collect_files`, even when the file
would individually pass the rest of the filter. -/
theorem collect_files_excludes_descendants (cfg : ScanCfg)
    (root : List String) (tree : FSEntry) (p : List String)
    (hp : p ∈ collect_files cfg root tree)
    (d : String) (hd : d ∈ cfg.excluded_dirs) : d ∉ p := by
  match tree, hp with
  | FSEntry.file n sz bin, hp => exact absurd hp (List.not_mem_nil p)
  | FSEntry.dir n children, hp =>
      exact mem_collectFrom_no_excluded cfg root children p hp d hd

/-- Witness for C7 at a concrete tree: the eligible file is collected, and
the excluded directory's name is not among its path segments. -/
theorem collect_files_excludes_descendants_witness :
    ("node_modules" : String) ∉ (["proj", "a.py"] : List String) :=
  collect_files_excludes_descendants
    ⟨["node_modules"], [".min.js"], 10⟩ ["proj"]
    (FSEntry.dir "proj"
      [FSEntry.file "a.py" 100 false,
       FSEntry.dir "node_modules" [FSEntry.file "b.py" 100 false]])
    ["proj", "a.py"]
    (by simp [collect_files, collectFrom, collectSubdirs, shouldExcludePath,
      strEndsWith]
        decide)
    "node_modules" (by decide)

/-! ## Directory-scan progress (`CodeScanner.scan_directory`)

The callback trace of one `scan_directory` run, as a function of the
collected file list (the model's list order stands for the workers'
completion order — the emitted percentage depends only on the completed
count).  `int(70.0 * completed / total)` truncates a correctly-rounded
nonnegative quotient, i.e. floor division.  The `except` branch emits one
final `(message, 100)` event; an exception can only cut the normal trace
short, so the possible traces are over-approximated by an arbitrary
truncation point followed by the 100% error event. -/

/-- `10 + int(70.0 * completed / total)` for `completed = j + 1`. -/
def perFilePercent (n j : Nat) : Nat := 10 + 70 * (j + 1) / n

/-- The progress-callback trace of a `scan_directory` run that raises no
exception. -/
def scanDirTrace (files : List String) : List (String × Nat) :=
  ("正在收集文件...", 5) ::
  ("找到 " ++ toString files.length ++ " 个文件需要扫描", 10) ::
  (if files.isEmpty then
    [("没有找到可扫描的文件", 100)]
  else
    ((List.range files.length).map (fun j =>
      ("正在扫描(" ++ toString (j + 1) ++ "/" ++ toString files.length ++
        "): " ++ (files.getD j ""), perFilePercent files.length j))) ++
    [("正在生成项目统计信息...", 85),
     ("正在进行项目分析...", 90),
     ("扫描完成，正在生成报告...", 95)])

/-- The trace when an exception interrupts the run after `k` callback
invocations: the normal trace cut at `k`, then the error event at 100%. -/
def scanDirTraceWithError (files : List String) (k : Nat) (err : String) :
    List (String × Nat) :=
  (scanDirTrace files).take k ++ [("扫描出错: " ++ err, 100)]

theorem perFilePercent_le_80 (n j : Nat) (hj : j < n) :
    perFilePercent n j ≤ 80 := by
  unfold perFilePercent
  have h1 : 70 * (j + 1) ≤ 70 * n := Nat.mul_le_mul_left 70 (by omega)
  have h2 : 70 * (j + 1) / n ≤ 70 * n / n := Nat.div_le_div_right h1
  have h3 : 70 * n / n = 70 := Nat.mul_div_left 70 (by omega)
  omega

theorem scanDirTrace_ge_10_tail (files : List String) :
    ∀ e ∈ (scanDirTrace files).drop 2, 10 ≤ e.2 := by
  intro e he
  unfold scanDirTrace at he
  simp only [List.drop] at he
  by_cases hf : files.isEmpty
  · rw [if_pos hf] at he
    rcases List.mem_singleton.mp he with rfl
    omega
  · rw [if_neg hf] at he
    rcases List.mem_append.mp he with hpf | htail
    · obtain ⟨j, hj, rfl⟩ := List.mem_map.mp hpf
      show 10 ≤ perFilePercent files.length j
      exact Nat.le_add_right 10 _
    · rcases List.mem_cons.mp htail with rfl | htail
      · omega
      rcases List.mem_cons.mp htail with rfl | htail
      · omega
      rcases List.mem_singleton.mp htail with rfl
      omega

theorem scanDirTrace_le_100 (files : List String) :
    ∀ e ∈ scanDirTrace files, e.2 ≤ 100 := by
  intro e he
  unfold scanDirTrace at he
  rcases List.mem_cons.mp he with rfl | he
  · omega
  rcases List.mem_cons.mp he with rfl | he
  · omega
  by_cases hf : files.isEmpty
  · rw [if_pos hf] at he
    rcases List.mem_singleton.mp he with rfl
    omega
  · rw [if_neg hf] at he
    rcases List.mem_append.mp he with hpf | htail
    · obtain ⟨j, hj, rfl⟩ := List.mem_map.mp hpf
      have := perFilePercent_le_80 files.length j (List.mem_range.mp hj)
      show perFilePercent files.length j ≤ 100
      omega
    · rcases List.mem_cons.mp htail with rfl | htail
      · omega
      rcases List.mem_cons.mp htail with rfl | htail
      · omega
      rcases List.mem_singleton.mp htail with rfl
      omega

theorem scanDirTrace_chain (files : List String) :
    List.Chain' (fun a b : String × Nat => a.2 ≤ b.2) (scanDirTrace files) := by
  unfold scanDirTrace
  rw [List.chain'_cons]
  refine ⟨by omega, ?_⟩
  rw [List.chain'_cons']
  constructor
  · intro y hy
    by_cases hf : files.isEmpty
    · rw [if_pos hf] at hy
      simp only [List.head?] at hy
      injection hy with hy
      rw [← hy]
      omega
    · rw [if_neg hf] at hy
      have hmem : y ∈ (if files.isEmpty then
          [("没有找到可扫描的文件", 100)]
        else
          ((List.range files.length).map (fun j =>
            ("正在扫描(" ++ toString (j + 1) ++ "/" ++
              toString files.length ++ "): " ++ (files.getD j ""),
              perFilePercent files.length j))) ++
          [("正在生成项目统计信息...", 85),
          ("正在进行项目分析...", 90),
          ("扫描完成，正在生成报告...", 95)]) := by
        rw [if_neg hf]
        exact List.mem_of_mem_head? hy
      have := scanDirTrace_ge_10_tail files y (by
        unfold scanDirTrace
        simpa using hmem)
      exact this
  · by_cases hf : files.isEmpty
    · rw [if_pos hf]
      exact List.chain'_singleton _
    · rw [if_neg hf]
      have hn : 0 < files.length := by
        cases files with
        | nil => exact absurd rfl hf
        | cons x xs => simp
      rw [List.chain'_append]
      refine ⟨?_, ?_, ?_⟩
      · rw [List.chain'_map]
        cases hlen : files.length with
        | zero => omega
        | succ m =>
            rw [List.chain'_range_succ]
            intro j hj
            show perFilePercent (m + 1) j ≤ perFilePercent (m + 1) (j + 1)
            unfold perFilePercent
            have := Nat.div_le_div_right (c := m + 1)
              (Nat.mul_le_mul_left 70 (show j + 1 ≤ j + 1 + 1 by omega))
            omega
      · rw [List.chain'_cons]
        exact ⟨by omega, List.chain'_cons.mpr ⟨by omega,
          List.chain'_singleton _⟩⟩
      · intro x hx y hy
        have hx' : x ∈ (List.range files.length).map (fun j =>
            ("正在扫描(" ++ toString (j + 1) ++ "/" ++
              toString files.length ++ "): " ++ (files.getD j ""),
              perFilePercent files.length j)) := List.mem_of_mem_getLast? hx
        obtain ⟨j, hj, rfl⟩ := List.mem_map.mp hx'
        have hb := perFilePercent_le_80 files.length j (List.mem_range.mp hj)
        simp only [List.head?] at hy
        injection hy with hy
        rw [← hy]
        simpa using by omega

/-- **C9.** Within a single `scan_directory` invocation the percent values
passed to the progress callback are monotonically non-decreasing, for every
collected file list and every outcome: files found (per-file progress
`10 + 70·completed/total`, then 85/90/95), no files found (straight to 100),
or an exception captured in `stats` (the normal trace cut short, then the
error event at 100). -/
theorem scan_directory_progress_monotone (files : List String)
    (failAt : Option Nat) (err : String) :
    List.Chain' (· ≤ ·)
      ((match failAt with
        | none => scanDirTrace files
        | some k => scanDirTraceWithError files k err).map Prod.snd) := by
  cases failAt with
  | none =>
      rw [List.chain'_map]
      exact scanDirTrace_chain files
  | some k =>
      unfold scanDirTraceWithError
      rw [List.chain'_map, List.chain'_append]
      refine ⟨List.Chain'.take (scanDirTrace_chain files) k,
        List.chain'_singleton _, ?_⟩
      intro x hx y hy
      have hx' : x ∈ scanDirTrace files :=
        List.mem_of_mem_take (List.mem_of_mem_getLast? hx)
      have := scanDirTrace_le_100 files x hx'
      simp only [List.head?] at hy
      injection hy with hy
      rw [← hy]
      exact this

/-! ## Cooperative cancellation (`gui.py`, `ScanThread.run`, directory scan)

The interruption flag is sampled only at the explicit
`isInterruptionRequested()` checks; the model indexes those checks in program
order and lets the flag be an arbitrary monotone (once set, stays set)
function of the check index.  Check 0 is the one before dispatch; checks
`1..m` are the ones inside `progress_update`, one per callback invocation of
`scan_directory` (which makes `m` calls); check `m+1` follows
`scan_directory`; check `m+2` guards the final 98% progress emit and the
`scan_complete` emit.  `scan_directory` itself never consults the flag: all
scheduled per-file work units run to completion (`workUnits`). -/

inductive ScanEvent where
  | progress (msg : String) (percent : Nat)
  | complete
deriving DecidableEq, Repr

/-- The outcome of the directory branch of `ScanThread.run`: the emitted
events, each tagged with the index of the check that guarded it, and the
number of per-file work units that ran. -/
structure ThreadRun where
  events : List (Nat × ScanEvent)
  workUnits : Nat

/-- The directory branch of `ScanThread.run`, as a function of the flag
trace. -/
def threadRunDir (path : String) (flag : Nat → Bool)
    (files : List String) : ThreadRun :=
  if flag 0 then ⟨[], 0⟩
  else
    let trace := scanDirTrace files
    let m := trace.length
    let cbEvents := trace.enum.filterMap (fun p =>
      if flag (1 + p.1) then none
      else some (1 + p.1, ScanEvent.progress p.2.1 p.2.2))
    let tailEvents :=
      if flag (m + 1) then []
      else if flag (m + 2) then []
      else [(m + 2, ScanEvent.progress "扫描完成，正在生成最终报告..." 98),
            (m + 2, ScanEvent.complete)]
    ⟨(0, ScanEvent.progress ("正在准备扫描目录: " ++ path) 0) ::
      (cbEvents ++ tailEvents), files.length⟩

/-- Once set, the interruption flag stays set. -/
def monotoneFlag (flag : Nat → Bool) : Prop :=
  ∀ i j, i ≤ j → flag i = true → flag j = true

/-- **C8.** Once the cooperative interruption flag is set — visible from
check index `k` on — no further progress or completion events are emitted:
every emitted event was guarded by a check strictly before `k` (the
orchestrating thread checks the flag before dispatching and before every
progress/completion emission).  Already-scheduled workers still finish: when
the scan was dispatched at all (`flag 0 = false`), all collected files are
processed regardless of the flag. -/
theorem scanthread_cancellation (path : String) (flag : Nat → Bool)
    (files : List String) (hmono : monotoneFlag flag) (k : Nat)
    (hk : flag k = true) :
    (∀ p ∈ (threadRunDir path flag files).events, p.1 < k) ∧
    (flag 0 = false →
      (threadRunDir path flag files).workUnits = files.length) := by
  have hlt : ∀ j, flag j = false → j < k := by
    intro j hj
    by_contra hjk
    have := hmono k j (by omega) hk
    rw [this] at hj
    exact absurd hj (by simp)
  constructor
  · intro p hp
    unfold threadRunDir at hp
    by_cases h0 : flag 0
    · rw [if_pos h0] at hp
      exact absurd hp (List.not_mem_nil p)
    · rw [if_neg h0] at hp
      simp only [List.mem_cons] at hp
      rcases hp with rfl | hp
      · exact hlt 0 (by simpa using h0)
      rcases List.mem_append.mp hp with hcb | htl
      · obtain ⟨q, hq, hconv⟩ := List.mem_filterMap.mp hcb
        by_cases hfq : flag (1 + q.1)
        · rw [if_pos hfq] at hconv
          exact absurd hconv (by simp)
        · rw [if_neg hfq] at hconv
          injection hconv with hpv
          rw [← hpv]
          exact hlt (1 + q.1) (by simpa using hfq)
      · by_cases h1 : flag ((scanDirTrace files).length + 1)
        · rw [if_pos h1] at htl
          exact absurd htl (List.not_mem_nil p)
        · rw [if_neg h1] at htl
          by_cases h2 : flag ((scanDirTrace files).length + 2)
          · rw [if_pos h2] at htl
            exact absurd htl (List.not_mem_nil p)
          · rw [if_neg h2] at htl
            have hp2 : p.1 = (scanDirTrace files).length + 2 := by
              rcases List.mem_cons.mp htl with rfl | htl
              · rfl
              rcases List.mem_singleton.mp htl with rfl
              · rfl
            rw [hp2]
            exact hlt _ (by simpa using h2)
  · intro h0
    unfold threadRunDir
    rw [if_neg (by simp [h0])]

/-- Witness for C8 at a concrete flag trace (set from check index 3 on) and
file list. -/
theorem scanthread_cancellation_witness :
    (∀ p ∈ (threadRunDir "demo" (fun i => decide (3 ≤ i))
        ["a.py", "b.py"]).events, p.1 < 3) ∧
    ((fun i => decide (3 ≤ i)) 0 = false →
      (threadRunDir "demo" (fun i => decide (3 ≤ i))
        ["a.py", "b.py"]).workUnits = 2) :=
  scanthread_cancellation "demo" (fun i => decide (3 ≤ i)) ["a.py", "b.py"]
    (by intro i j hij hi; simp only [decide_eq_true_eq] at *; omega)
    3 (by decide)

/-! ## Semgrep rule conversion (`codescan/semgrep_converter.py`)

YAML documents are modelled by the same document type `JVal` (the YAML
subset these rules use coincides with it).  The filesystem walk of
`convert_semgrep_rules_dir` is abstracted to the list of parsed documents,
one per YAML file in glob order; `yaml.safe_load` of an empty file is
`none`.  Python builtins are modelled character-wise: `str.lower`,
`str.replace`, slicing, truthiness, iteration (a string iterates its
characters, a dict its keys; iterating any other non-list raises). -/

/-- `str.lower()` (ASCII case folding, as these rule files use). -/
def strToLower (s : String) : String := String.mk (s.data.map Char.toLower)

/-- Python truthiness of a document value. -/
def pyTruthy : JVal → Bool
  | JVal.null => false
  | JVal.bool b => b
  | JVal.int n => n ≠ 0
  | JVal.str s => s ≠ ""
  | JVal.arr xs => ¬ xs.isEmpty
  | JVal.obj kvs => ¬ kvs.isEmpty

/-- Python iteration: a list yields its items, a string its characters, a
dict its keys; anything else raises `TypeError` (`none`). -/
def pyIter : JVal → Option (List JVal)
  | JVal.arr xs => some xs
  | JVal.str s => some (s.data.map (fun c => JVal.str (String.singleton c)))
  | JVal.obj kvs => some (kvs.map (fun p => JVal.str p.1))
  | _ => none

/-- Python `x[:50]`: defined on strings and lists, raises otherwise. -/
def pySlice50 : JVal → Option JVal
  | JVal.str s => some (JVal.str (String.mk (s.data.take 50)))
  | JVal.arr xs => some (JVal.arr (xs.take 50))
  | _ => none

/-- The quote character used by `repr` of a string. -/
def quoteChar : String := String.singleton (Char.ofNat 39)

mutual
/-- Python `repr` of a document value (scalars exactly; containers in
Python's bracket notation — no claim exercises the container cases). -/
def pyRepr : JVal → String
  | JVal.null => "None"
  | JVal.bool true => "True"
  | JVal.bool false => "False"
  | JVal.int n => toString n
  | JVal.str s => quoteChar ++ s ++ quoteChar
  | JVal.arr xs => "[" ++ String.intercalate ", " (pyReprList xs) ++ "]"
  | JVal.obj kvs => "\x7b" ++ String.intercalate ", " (pyReprObj kvs) ++ "\x7d"

def pyReprList : List JVal → List String
  | [] => []
  | v :: rest => pyRepr v :: pyReprList rest

def pyReprObj : List (String × JVal) → List String
  | [] => []
  | p :: rest =>
      (quoteChar ++ p.1 ++ quoteChar ++ ": " ++ pyRepr p.2) :: pyReprObj rest
end

/-- Python `str` of a document value (`str` of a string is itself, `str` of
anything else is its `repr`). -/
def pyStr (v : JVal) : String :=
  match v with
  | JVal.str s => s
  | v => pyRepr v

/-- `p.replace('\n', ' ')`. -/
def replaceNewlines (s : String) : String :=
  String.mk (s.data.map (fun c => if c = '\n' then ' ' else c))

/-- A character the metavariable pattern `[A-Z_]+` matches. -/
def isMetaChar (c : Char) : Bool := ('A' ≤ c && c ≤ 'Z') || c = '_'

/-- The scanning automaton of `re.sub(r'[$][A-Z_]+', '', pattern)`:
`inRun` means we are inside a matched metavariable run. -/
def stripMetaGo (inRun : Bool) : List Char → List Char
  | [] => []
  | c :: rest =>
      if inRun && isMetaChar c then stripMetaGo true rest
      else if c = '$' && (match rest with
          | c' :: _ => isMetaChar c'
          | [] => false) then stripMetaGo true rest
      else c :: stripMetaGo false rest

/-- `re.sub(r'[$][A-Z_]+', '', pattern)`: drop every `$` followed by a
maximal nonempty run of `[A-Z_]`, together with that run. -/
def stripMeta (s : List Char) : List Char := stripMetaGo false s

/-- `pattern.replace('...', '.*?')`: left-to-right, non-overlapping. -/
def replaceEllipsis : List Char → List Char
  | '.' :: '.' :: '.' :: rest => '.' :: '*' :: '?' :: replaceEllipsis rest
  | c :: rest => c :: replaceEllipsis rest
  | [] => []

/-- The characters `re.escape` prefixes with a backslash
(`()[]{}?*+-|^$\.&~#`, space, and the five escape-class control
characters). -/
def reSpecialChars : List Char :=
  ['(', ')', '[', ']', '\x7b', '\x7d', '?', '*', '+', '-', '|', '^', '$',
   '\\', '.', '&', '~', '#', ' ', '\t', '\n', '\r', '\x0b', '\x0c']

/-- `re.escape(pattern)`. -/
def reEscape (s : List Char) : List Char :=
  s.bind (fun c => if reSpecialChars.contains c then ['\\', c] else [c])

/-- Python truthiness of the `pattern` variable (`None` and `""` are
falsy). -/
def patTruthy : Option JVal → Bool
  | none => false
  | some v => pyTruthy v

/-- The `if 'pattern' in rule ... elif 'pattern-either' ... elif
'pattern-regex' ... elif 'pattern-inside' ... elif 'pattern-not'` chain of
`convert_semgrep_rule`.  Outer `none` is a raised `TypeError` (iterating a
non-iterable `pattern-either` value); the inner option is the `pattern`
variable (still `None` when nothing matched). -/
def patternFromKeys (rule : List (String × JVal)) : Option (Option JVal) :=
  if (dictLookup rule "pattern").isSome then
    some (match dictLookup rule "pattern" with
      | some (JVal.str s) => some (JVal.str s)
      | some (JVal.obj o) =>
          if (dictLookup o "pattern").isSome then
            some (dictGetD o "pattern" (JVal.str ""))
          else none
      | _ => none)
  else if (dictLookup rule "pattern-either").isSome then
    let patterns := dictGetD rule "pattern-either" (JVal.arr [])
    if pyTruthy patterns then
      match pyIter patterns with
      | none => none
      | some items =>
          let string_patterns := items.filterMap (fun p =>
            match p with
            | JVal.str s => some s
            | JVal.obj o =>
                match dictLookup o "pattern" with
                | some (JVal.str s) => some s
                | _ => none
            | _ => none)
          if string_patterns.isEmpty then some none
          else some (some (JVal.str (String.intercalate "|"
            (string_patterns.map replaceNewlines))))
    else some none
  else if (dictLookup rule "pattern-regex").isSome then
    some (match dictLookup rule "pattern-regex" with
      | some (JVal.str s) => some (JVal.str s)
      | _ => none)
  else if (dictLookup rule "pattern-inside").isSome then
    some (match dictLookup rule "pattern-inside" with
      | some (JVal.str s) => some (JVal.str s)
      | _ => none)
  else if (dictLookup rule "pattern-not").isSome then
    some (match dictLookup rule "pattern-not" with
      | some (JVal.str s) => some (JVal.str ("(?!" ++ s ++ ")"))
      | _ => none)
  else some none

/-- The `for pattern_entry in rule['patterns']` loop: a direct string
`pattern` breaks immediately; a nested `patterns` list contributes its first
dict-held string pattern and breaks only if that value is truthy (an empty
string is kept in the `pattern` variable and scanning continues — Python's
`if pattern: break`). -/
def patternsBlockLoop : List JVal → Option JVal → Option JVal
  | [], acc => acc
  | e :: rest, acc =>
      match e with
      | JVal.obj o =>
          (match dictLookup o "pattern" with
          | some (JVal.str s) => some (JVal.str s)
          | _ =>
              match dictLookup o "patterns" with
              | some (JVal.arr nested) =>
                  (match nested.findSome? (fun ne =>
                      match ne with
                      | JVal.obj no =>
                          (match dictLookup no "pattern" with
                          | some (JVal.str s) => some (JVal.str s)
                          | _ => none)
                      | _ => none) with
                  | some v =>
                      if pyTruthy v then some v
                      else patternsBlockLoop rest (some v)
                  | none => patternsBlockLoop rest acc)
              | _ => patternsBlockLoop rest acc)
      | _ => patternsBlockLoop rest acc

/-- `if not pattern and 'patterns' in rule and isinstance(list) and
nonempty: ...`. -/
def patternsBlock (rule : List (String × JVal)) (pat : Option JVal) :
    Option JVal :=
  if patTruthy pat then pat
  else match dictLookup rule "patterns" with
    | some (JVal.arr items) =>
        if items.isEmpty then pat else patternsBlockLoop items pat
    | _ => pat

/-- `if not pattern and 'rules' in rule and isinstance(list) and nonempty:`
take the first subrule carrying a string `pattern`. -/
def rulesBlock (rule : List (String × JVal)) (pat : Option JVal) :
    Option JVal :=
  if patTruthy pat then pat
  else match dictLookup rule "rules" with
    | some (JVal.arr items) =>
        if items.isEmpty then pat
        else match items.findSome? (fun e =>
            match e with
            | JVal.obj o =>
                (match dictLookup o "pattern" with
                | some (JVal.str s) => some s
                | _ => none)
            | _ => none) with
          | some s => some (JVal.str s)
          | none => pat
    | _ => pat

/-- `if not pattern:` synthesize a comment-like placeholder from `metadata`
(`cwe`, then `owasp`) or the rule id. -/
def fallbackPattern (rule : List (String × JVal)) (rule_id : JVal)
    (pat : Option JVal) : JVal :=
  if patTruthy pat then (pat.getD (JVal.str ""))
  else
    match dictLookup rule "metadata" with
    | some (JVal.obj mo) =>
        (match dictLookup mo "cwe" with
        | some cv => JVal.str ("# CWE-" ++ pyStr cv)
        | none =>
            match dictLookup mo "owasp" with
            | some ov => JVal.str ("# OWASP-" ++ pyStr ov)
            | none => JVal.str ("# " ++ pyStr rule_id))
    | _ => JVal.str ("# " ++ pyStr rule_id)

/-- `if not isinstance(pattern, str): pattern = str(pattern)`. -/
def patternString (v : JVal) : String :=
  match v with
  | JVal.str s => s
  | v => pyStr v

/-- A converted rule, field for field the dict built by
`convert_semgrep_rule` (`source` is always `"semgrep"`; `metadata` is kept
only when the source rule carried a dict there). -/
structure ConvertedRule where
  id : JVal
  name : JVal
  pattern : String
  description : JVal
  severity : String
  languages : JVal
  source : String
  metadata : Option JVal

/-- `convert_semgrep_rule`: `none` when the Python function returns `None`
(its `except` branch caught a raised error). -/
def convert_semgrep_rule (rule : List (String × JVal)) :
    Option ConvertedRule := do
  let rule_id := dictGetD rule "id" (JVal.str "")
  let languages := dictGetD rule "languages" (JVal.arr [])
  let severity ← match dictGetD rule "severity" (JVal.str "medium") with
    | JVal.str s => some (strToLower s)
    | _ => none
  let message := dictGetD rule "message" (JVal.str "")
  let nameV := dictGetD rule "name" (JVal.str "")
  let rule_name ← if pyTruthy nameV then some nameV else pySlice50 message
  let pat0 ← patternFromKeys rule
  let pat1 := patternsBlock rule pat0
  let pat2 := rulesBlock rule pat1
  let patv := fallbackPattern rule rule_id pat2
  let patstr := patternString patv
  let escaped := String.mk (reEscape (replaceEllipsis (stripMeta
    patstr.data)))
  pure
    { id := rule_id
      name := rule_name
      pattern := escaped
      description := message
      severity := severity
      languages := languages
      source := "semgrep"
      metadata :=
        match dictLookup rule "metadata" with
        | some (JVal.obj mo) => some (JVal.obj mo)
        | _ => none }

/-- The language classification of one converted rule in
`convert_semgrep_rules_file`: take the converted `languages` value, default
to `['common']` when falsy, and normalize each entry with
`str(lang).lower() if lang else 'common'`.  Iterating a non-iterable raises
(`none`), which aborts the file's processing. -/
def classifyLangs (languages : JVal) : Option (List String) :=
  let langs := if pyTruthy languages then languages
               else JVal.arr [JVal.str "common"]
  (pyIter langs).map (fun items => items.map (fun lv =>
    if pyTruthy lv then strToLower (pyStr lv) else "common"))

/-- The rule-list discovery of `convert_semgrep_rules_file`: a top-level
`rules:` list, a single inline rule (`id` and `pattern` keys), a dict of
sub-documents each holding `rules` or an inline `pattern`, or a bare list of
rules. -/
def rulesOfContent (content : JVal) : List JVal :=
  match content with
  | JVal.obj kvs =>
      (match dictLookup kvs "rules" with
      | some (JVal.arr rs) => rs
      | _ =>
          if (dictLookup kvs "id").isSome ∧ (dictLookup kvs "pattern").isSome
          then [content]
          else
            kvs.foldl (fun acc p =>
              match p.2 with
              | JVal.obj vo =>
                  (match dictLookup vo "rules" with
                  | some (JVal.arr rs) => acc ++ rs
                  | _ =>
                      if (dictLookup vo "pattern").isSome then acc ++ [p.2]
                      else acc)
              | _ => acc) [])
  | JVal.arr rs => rs
  | _ => []

/-- The per-rule loop of `convert_semgrep_rules_file`: skip non-dict rules
and failed conversions; bucket each converted rule under every normalized
language (creating buckets on demand); a raised error returns the buckets
accumulated so far (the function's `except` branch). -/
def processRules (rules : List JVal)
    (acc : List (String × List ConvertedRule)) :
    List (String × List ConvertedRule) :=
  match rules with
  | [] => acc
  | r :: rest =>
      match r with
      | JVal.obj kvs =>
          (match convert_semgrep_rule kvs with
          | none => processRules rest acc
          | some conv =>
              match classifyLangs conv.languages with
              | none => acc
              | some langs =>
                  processRules rest (langs.foldl (fun a lang =>
                    let lang_key := strToLower lang
                    let a := if (dictLookup a lang_key).isSome then a
                             else dictSet a lang_key []
                    dictSet a lang_key
                      (dictGetD a lang_key [] ++ [conv])) acc))
      | _ => processRules rest acc

/-- `convert_semgrep_rules_file`, over the parsed document (`none` for an
empty file). -/
def convert_semgrep_rules_file (content : Option JVal) :
    List (String × List ConvertedRule) :=
  match content with
  | none => []
  | some c => processRules (rulesOfContent c) []

/-- The nine preset buckets `convert_semgrep_rules_dir` starts from. -/
def presetBuckets : List (String × List ConvertedRule) :=
  [("common", []), ("python", []), ("javascript", []), ("java", []),
   ("go", []), ("ruby", []), ("php", []), ("c", []), ("cpp", [])]

/-- `convert_semgrep_rules_dir`, over the parsed YAML documents found under
the directory, in glob order: convert each file and extend the buckets. -/
def convert_semgrep_rules_dir (docs : List (Option JVal)) :
    List (String × List ConvertedRule) :=
  docs.foldl (fun result doc =>
    (convert_semgrep_rules_file doc).foldl (fun res lr =>
      let res := if (dictLookup res lr.1).isSome then res
                 else dictSet res lr.1 []
      dictSet res lr.1 (dictGetD res lr.1 [] ++ lr.2)) result)
    presetBuckets

/-! ## The engine's use of a stored pattern
(`CodeScanner._analyze_file_content`, rule loop)

`re.compile(pattern.get("pattern", ""), re.IGNORECASE).search(content)`,
modelled for the regex fragment the importer produces: literal characters,
backslash-escaped characters (each denoting itself — exactly what
`re.escape` emits), and top-level alternation `|`. -/

/-- Split such a pattern into its `|`-alternatives, resolving backslash
escapes to their literal character. -/
def regexAlternatives : List Char → List (List Char)
  | [] => [[]]
  | '\\' :: c :: rest =>
      (match regexAlternatives rest with
      | b :: bs => (c :: b) :: bs
      | [] => [[c]])
  | '|' :: rest => [] :: regexAlternatives rest
  | c :: rest =>
      (match regexAlternatives rest with
      | b :: bs => (c :: b) :: bs
      | [] => [[c]])

/-- The left-to-right scan of `re.search` for a literal needle. -/
def containsSub (needle : List Char) : List Char → Bool
  | [] => needle.isEmpty
  | c :: rest => needle.isPrefixOf (c :: rest) || containsSub needle rest

/-- Case-insensitive `re.search` on the fragment: some alternative occurs
(case-folded) inside the content. -/
def regexSearch (pattern content : String) : Bool :=
  (regexAlternatives pattern.data).any
    (fun alt => containsSub (alt.map Char.toLower)
      (content.data.map Char.toLower))

/-! ### Claim C2 -/

/-- The C2 scenario document, with one declared language: one YAML file whose
single rule carries `pattern-either: ["foo", "bar"]` and no other pattern
key. -/
def semgrepDocDeclared : JVal :=
  JVal.obj [("rules", JVal.arr [JVal.obj
    [("id", JVal.str "r1"),
     ("pattern-either", JVal.arr [JVal.str "foo", JVal.str "bar"]),
     ("message", JVal.str "msg"),
     ("languages", JVal.arr [JVal.str "python"])]])]

/-- The same scenario with no declared languages. -/
def semgrepDocUndeclared : JVal :=
  JVal.obj [("rules", JVal.arr [JVal.obj
    [("id", JVal.str "r1"),
     ("pattern-either", JVal.arr [JVal.str "foo", JVal.str "bar"]),
     ("message", JVal.str "msg")]])]

/-- **C2, counterexample.** The import does produce exactly one rule, with
stored pattern `foo\|bar` — but `re.escape` has escaped the alternation
bar, so the stored pattern, used as the engine's case-insensitive regex,
does **not** match content containing `foo` (here `"xx foo yy"`, which
plainly contains the substring `foo`), contradicting the claim's "matches
content containing `foo`". -/
theorem import_pattern_either_counterexample :
    ((dictGetD (convert_semgrep_rules_dir [some semgrepDocDeclared])
        "python" []).map ConvertedRule.pattern = ["foo\\|bar"]) ∧
    containsSub "foo".data "xx foo yy".data = true ∧
    regexSearch "foo\\|bar" "xx foo yy" = false :=
  ⟨rfl, rfl, rfl⟩

/-- **C2, amended.** For the scenario directory, `importDirectory` produces
exactly one `RulePattern` for the rule, bucketed under each declared
language (or `"common"` when none is declared); its stored pattern is the
`re.escape` of the alternatives joined with `|` — the literal text
`foo\|bar` — and, used as the engine's case-insensitive regex, it matches
content containing the joined literal text `foo|bar` (in either case), not
each alternative separately. -/
theorem import_pattern_either_amended :
    ((convert_semgrep_rules_dir [some semgrepDocDeclared]).map
      (fun lr => (lr.1, lr.2.map ConvertedRule.pattern)) =
      [("common", []), ("python", ["foo\\|bar"]), ("javascript", []),
       ("java", []), ("go", []), ("ruby", []), ("php", []), ("c", []),
       ("cpp", [])]) ∧
    ((convert_semgrep_rules_dir [some semgrepDocUndeclared]).map
      (fun lr => (lr.1, lr.2.map ConvertedRule.pattern)) =
      [("common", ["foo\\|bar"]), ("python", []), ("javascript", []),
       ("java", []), ("go", []), ("ruby", []), ("php", []), ("c", []),
       ("cpp", [])]) ∧
    String.mk (reEscape "foo|bar".data) = "foo\\|bar" ∧
    regexSearch "foo\\|bar" "has foo|bar inside" = true ∧
    regexSearch "foo\\|bar" "HAS FOO|BAR INSIDE" = true :=
  ⟨rfl, rfl, rfl, rfl, rfl⟩

end Codescan
